import Mathlib

set_option maxHeartbeats 1000000

/-! Shallow embedding of the crossword solver core of the kryss repository
(src/word.rs, src/board.rs, src/dictionary.rs).  Rust strings are modelled
as lists of characters, `usize` as `Nat` (subtractions that the source
guards with comparisons are exact; subtractions that the source can
underflow are modelled separately with a checked subtraction), vectors as
lists, and the word and crossing collections of the board as lists indexed
by position.  The unbounded while loops of the source get explicit
structural fuel so that every operation stays executable. -/

namespace Kryss

/-- Orientation of a word slot (enum Orientation in src/word.rs). -/
inductive Orientation where
  | Right
  | Left
  | Down
  | Up
deriving DecidableEq

/-- Orientation::is_horizontal. -/
def Orientation.is_horizontal : Orientation → Bool
  | .Right | .Left => true
  | _ => false

/-- Orientation::is_vertical. -/
def Orientation.is_vertical : Orientation → Bool
  | .Down | .Up => true
  | _ => false

/-- Orientation::same_or_opposite_direction. -/
def Orientation.same_or_opposite_direction (a b : Orientation) : Bool :=
  (a.is_horizontal && b.is_horizontal) || (a.is_vertical && b.is_vertical)

/-- A word slot (struct Word in src/word.rs); candidate strings are lists
of characters. -/
structure Word where
  o : Orientation
  x : Nat
  y : Nat
  length : Nat
  key : Option String
  candidates : List (List Char)
  placed : Bool
deriving DecidableEq

instance : Inhabited Word :=
  ⟨⟨Orientation.Right, 0, 0, 0, none, [], false⟩⟩

/-- Word::xmin; for Left the source computes x - length + 1 in usize
arithmetic, which equals x + 1 - length whenever the footprint lies inside
the grid (x + 1 >= length). -/
def Word.xmin (w : Word) : Nat :=
  match w.o with
  | .Left => w.x + 1 - w.length
  | _ => w.x

/-- Word::ymin; for Up the source computes y - length + 1, modelled as
y + 1 - length as for xmin. -/
def Word.ymin (w : Word) : Nat :=
  match w.o with
  | .Up => w.y + 1 - w.length
  | _ => w.y

/-- Word::xmax. -/
def Word.xmax (w : Word) : Nat :=
  match w.o with
  | .Right => w.x + w.length - 1
  | _ => w.x

/-- Word::ymax. -/
def Word.ymax (w : Word) : Nat :=
  match w.o with
  | .Down => w.y + w.length - 1
  | _ => w.y

/-- Word::position_at_index; the reversed orientations walk backward from
the anchor (the subtraction is exact for offsets inside the footprint of a
well-formed slot). -/
def Word.position_at_index (w : Word) (i : Nat) : Nat × Nat :=
  match w.o with
  | .Right => (w.x + i, w.y)
  | .Left => (w.x - i, w.y)
  | .Down => (w.x, w.y + i)
  | .Up => (w.x, w.y - i)

/-- Word::position_in_word. -/
def Word.position_in_word (w : Word) (x y : Nat) : Bool :=
  decide (w.xmin ≤ x) && decide (x ≤ w.xmax) &&
    decide (w.ymin ≤ y) && decide (y ≤ w.ymax)

/-- Word::is_crossing. -/
def Word.is_crossing (a b : Word) : Bool :=
  if a.o.same_or_opposite_direction b.o then false
  else if a.o.is_horizontal then
    decide (a.xmin ≤ b.xmin) && decide (b.xmax ≤ a.xmax) &&
      decide (b.ymin ≤ a.ymin) && decide (a.ymax ≤ b.ymax)
  else
    decide (b.xmin ≤ a.xmin) && decide (a.xmax ≤ b.xmax) &&
      decide (a.ymin ≤ b.ymin) && decide (b.ymax ≤ a.ymax)

/-- Well-formedness of a slot: positive length and a footprint that stays
inside the non-negative grid. -/
def Word.WF (w : Word) : Prop :=
  1 ≤ w.length ∧ (w.o = Orientation.Left → w.length ≤ w.x + 1) ∧
    (w.o = Orientation.Up → w.length ≤ w.y + 1)

instance (w : Word) : Decidable w.WF := by
  unfold Word.WF; infer_instance

/-- Word::char_at; the source asserts a single candidate and indexes into
it, so out-of-domain uses (absent in the claims) are modelled by a
placeholder character. -/
def Word.char_at (w : Word) (ix : Nat) : Char :=
  (w.candidates.headD []).getD ix '?'

/-- Word::has_one_candidate. -/
def Word.has_one_candidate (w : Word) : Bool :=
  w.candidates.length == 1

/-- Word::place. -/
def Word.place (w : Word) (optWord : Option (List Char)) : Word :=
  match optWord with
  | some word => { w with placed := true, candidates := [word] }
  | none => { w with placed := true }

/-- Word::unplace. -/
def Word.unplace (w : Word) : Word :=
  { w with placed := false, candidates := [] }

/-- Offsets recorded in the crossing index by Board::from_file for a
crossing pair: the absolute differences of the two anchors, the x
difference assigned to the horizontal slot. -/
def crossingOffsets (a b : Word) : Nat × Nat :=
  let xi := if b.x < a.x then a.x - b.x else b.x - a.x
  let yi := if b.y < a.y then a.y - b.y else b.y - a.y
  if a.o.is_horizontal then (xi, yi) else (yi, xi)

/-- Checked usize subtraction: none models a debug-mode underflow panic in
the source. -/
def csub (a b : Nat) : Option Nat :=
  if b ≤ a then some (a - b) else none

/-- Word::xmin with the Left-branch subtraction checked. -/
def Word.xminChecked (w : Word) : Option Nat :=
  match w.o with
  | .Left =>
    match csub w.x w.length with
    | some t => some (t + 1)
    | none => none
  | _ => some w.x

/-- Word::ymin with the Up-branch subtraction checked. -/
def Word.yminChecked (w : Word) : Option Nat :=
  match w.o with
  | .Up =>
    match csub w.y w.length with
    | some t => some (t + 1)
    | none => none
  | _ => some w.y

/-- Word::xmax with the Right-branch subtraction checked. -/
def Word.xmaxChecked (w : Word) : Option Nat :=
  match w.o with
  | .Right => csub (w.x + w.length) 1
  | _ => some w.x

/-- Word::ymax with the Down-branch subtraction checked. -/
def Word.ymaxChecked (w : Word) : Option Nat :=
  match w.o with
  | .Down => csub (w.y + w.length) 1
  | _ => some w.y

/-- Word::is_crossing with every usize subtraction checked, in the
short-circuit evaluation order of the source; none models a debug-mode
underflow panic. -/
def Word.is_crossingChecked (a b : Word) : Option Bool :=
  if a.o.same_or_opposite_direction b.o then some false
  else if a.o.is_horizontal then
    match a.xminChecked, b.xminChecked with
    | some axmin, some bxmin =>
      if axmin ≤ bxmin then
        match a.xmaxChecked, b.xmaxChecked with
        | some axmax, some bxmax =>
          if bxmax ≤ axmax then
            match a.yminChecked, b.yminChecked with
            | some aymin, some bymin =>
              if bymin ≤ aymin then
                match a.ymaxChecked, b.ymaxChecked with
                | some aymax, some bymax => some (decide (aymax ≤ bymax))
                | _, _ => none
              else some false
            | _, _ => none
          else some false
        | _, _ => none
      else some false
    | _, _ => none
  else
    match a.xminChecked, b.xminChecked with
    | some axmin, some bxmin =>
      if bxmin ≤ axmin then
        match a.xmaxChecked, b.xmaxChecked with
        | some axmax, some bxmax =>
          if axmax ≤ bxmax then
            match a.yminChecked, b.yminChecked with
            | some aymin, some bymin =>
              if aymin ≤ bymin then
                match a.ymaxChecked, b.ymaxChecked with
                | some aymax, some bymax => some (decide (bymax ≤ aymax))
                | _, _ => none
              else some false
            | _, _ => none
          else some false
        | _, _ => none
      else some false
    | _, _ => none

/-- Word::is_conflicting with checked usize subtraction, mirroring the
source's evaluation order (crossing test, then all eight bounding box
components, then the corner check, then the short-circuit side check whose
subtractions can underflow); none models a debug-mode underflow panic. -/
def Word.is_conflictingChecked (a b : Word) : Option Bool :=
  match a.is_crossingChecked b with
  | none => none
  | some true => some false
  | some false =>
    match a.xminChecked, a.xmaxChecked, a.yminChecked, a.ymaxChecked,
          b.xminChecked, b.xmaxChecked, b.yminChecked, b.ymaxChecked with
    | some axmin, some axmax, some aymin, some aymax,
      some bxmin, some bxmax, some bymin, some bymax =>
      let b_is_over := decide (bymax < aymin)
      let b_is_under := decide (aymax < bymin)
      let b_is_left := decide (bxmax < axmin)
      let b_is_right := decide (axmax < bxmin)
      if (b_is_over && (b_is_left || b_is_right)) ||
          (b_is_under && (b_is_left || b_is_right)) then some false
      else if bxmax + 1 < axmin then some false
      else
        match csub bxmin 1 with
        | none => none
        | some t1 =>
          if axmax < t1 then some false
          else if bymax + 1 < aymin then some false
          else
            match csub bymin 1 with
            | none => none
            | some t2 =>
              if aymax < t2 then some false
              else if a.o.is_horizontal && b.o.is_horizontal then
                some (decide (a.y = b.y))
              else if a.o.is_vertical && b.o.is_vertical then
                some (decide (a.x = b.x))
              else some true
    | _, _, _, _, _, _, _, _ => none

/-- Board solution status (enum State in src/board.rs). -/
inductive State where
  | Unsolved
  | Unsolvable
  | Ambiguous
  | Solved
deriving DecidableEq

/-- The dictionary collaborator, modelled as a pure lookup function of key,
length and hint (the determinism the claims assume of
Dictionary::lookup). -/
abbrev Dict := String → Nat → List Char → List (List Char)

/-- Board (struct Board in src/board.rs): the crossing index maps the slot
at position a to the list of (neighbor index, offset in this slot, offset
in the neighbor); the presentation fields (filename, colors, width,
height) play no part in the claims and are omitted. -/
structure Board where
  words : List Word
  crossings : List (List (Nat × Nat × Nat))
  changed : Bool
  state : State
deriving DecidableEq

/-- Board::get_hints over explicit word and crossing lists. -/
def get_hints (ws : List Word) (cr : List (List (Nat × Nat × Nat)))
    (a : Nat) : List Char :=
  let w := ws.getD a default
  if w.placed then w.candidates.headD []
  else
    let v0 := List.replicate w.length '.'
    if a < cr.length then
      (cr.getD a []).foldl
        (fun v e =>
          let wb := ws.getD e.1 default
          if wb.placed then v.set e.2.1 (wb.char_at e.2.2) else v)
        v0
    else v0

/-- The body of the index loop of Board::refresh_candidates: skip placed
slots and slots without a key, otherwise replace the candidates by the
dictionary lookup for (key, length, hint). -/
def refreshStep (dict : Dict) (cr : List (List (Nat × Nat × Nat)))
    (ws : List Word) (i : Nat) (h : i < ws.length) : List Word :=
  let w := ws.get ⟨i, h⟩
  if w.placed then ws
  else
    match w.key with
    | some k => ws.set i { w with candidates := dict k w.length (get_hints ws cr i) }
    | none => ws

/-- The index loop of Board::refresh_candidates from index i, with
structural fuel (the wrapper supplies fuel covering the whole range). -/
def refreshFrom (dict : Dict) (cr : List (List (Nat × Nat × Nat))) :
    Nat → List Word → Nat → List Word
  | 0, ws, _ => ws
  | fuel + 1, ws, i =>
    if h : i < ws.length then
      refreshFrom dict cr fuel (refreshStep dict cr ws i h) (i + 1)
    else ws

/-- Board::refresh_candidates. -/
def Board.refresh_candidates (dict : Dict) (bd : Board) : Board :=
  { bd with words := refreshFrom dict bd.crossings bd.words.length bd.words 0 }

/-- Vec::swap_remove at position j: overwrite position j with the last
element and drop the last position. -/
def swapRemove [Inhabited α] (l : List α) (j : Nat) : List α :=
  (l.set j (l.getD (l.length - 1) default)).dropLast

/-- The in-place candidate filtering loop of Board::place (swap_remove
based), with structural fuel; the wrapper supplies the list length. -/
def swapFilterAux [Inhabited α] (p : α → Bool) : Nat → List α → Nat → List α
  | 0, l, _ => l
  | fuel + 1, l, j =>
    if h : j < l.length then
      if p (l.get ⟨j, h⟩) then swapFilterAux p fuel l (j + 1)
      else swapFilterAux p fuel (swapRemove l j) j
    else l

/-- The whole filtering loop starting at position 0. -/
def swapFilter [Inhabited α] (p : α → Bool) (l : List α) : List α :=
  swapFilterAux p l.length l 0

/-- Board::unplace. -/
def Board.unplace (dict : Dict) (bd : Board) (ix : Nat) : Board :=
  let ws := bd.words.set ix (bd.words.getD ix default).unplace
  { bd with words := refreshFrom dict bd.crossings ws.length ws 0 }

/-- The body of the crossing loop of Board::place for committed word w:
schedule a mismatching placed neighbor for unplacing, or filter an
unplaced neighbor's candidates in place with the swap_remove loop. -/
def placeStep (w : Word) (acc : List Word × List Nat)
    (e : Nat × Nat × Nat) : List Word × List Nat :=
  let xw := acc.1.getD e.1 default
  if xw.placed then
    if xw.char_at e.2.2 == w.char_at e.2.1 then acc
    else (acc.1, acc.2 ++ [e.1])
  else
    let kept :=
      swapFilter (fun c => c.getD e.2.2 '?' == w.char_at e.2.1) xw.candidates
    (acc.1.set e.1 { xw with candidates := kept }, acc.2)

/-- Board::place: place the slot, filter the candidates of uncommitted
crossing neighbors in place, schedule mismatching committed neighbors and
unplace them afterwards, and mark the board changed. -/
def Board.place (dict : Dict) (bd : Board) (ix : Nat)
    (optWord : Option (List Char)) : Board :=
  let ws0 := bd.words.set ix ((bd.words.getD ix default).place optWord)
  let w := ws0.getD ix default
  let r := (bd.crossings.getD ix []).foldl (placeStep w) (ws0, ([] : List Nat))
  let bd2 := r.2.foldl (fun b u => Board.unplace dict b u) { bd with words := r.1 }
  { bd2 with changed := true }

/-- The body of the pass loop of Board::solve_repeated: place the slot at
index i when it is unplaced with exactly one candidate, clearing the done
flag. -/
def solveStep (dict : Dict) (acc : Board × Bool) (i : Nat) : Board × Bool :=
  let w := acc.1.words.getD i default
  if w.placed then acc
  else if w.has_one_candidate then (Board.place dict acc.1 i none, false)
  else acc

/-- One pass of the while loop of Board::solve_repeated over all indices;
the Bool is the done flag, true when the pass placed nothing. -/
def solvePass (dict : Dict) (bd : Board) : Board × Bool :=
  (List.range bd.words.length).foldl (solveStep dict) (bd, true)

/-- The while loop of Board::solve_repeated with explicit fuel; none models
a run needing more passes than the fuel allows. -/
def solveLoop (dict : Dict) : Nat → Board → Option Board
  | 0, _ => none
  | fuel + 1, bd =>
    match solvePass dict bd with
    | (bd2, true) => some bd2
    | (bd2, false) => solveLoop dict fuel bd2

/-- The classification fold of Board::solve_repeated: maximum candidate
count over unplaced words, starting from -1. -/
def classifyMax (ws : List Word) : Int :=
  ws.foldl (fun m w => if w.placed then m else max m ((w.candidates.length : Int))) (-1)

/-- The status match at the end of Board::solve_repeated. -/
def classify (ws : List Word) : State :=
  let m := classifyMax ws
  if m = -1 then State.Solved
  else if m = 0 then State.Unsolvable
  else if m = 1 then State.Unsolved
  else State.Ambiguous

/-- Board::solve_repeated: run passes until one places nothing, then
classify; fuel bounds the number of passes. -/
def Board.solve_repeated (dict : Dict) (fuel : Nat) (bd : Board) : Option Board :=
  (solveLoop dict fuel bd).map fun b => { b with state := classify b.words }

/-- A dictionary that answers only for key "c" (used with concrete boards). -/
def dcex : Dict := fun k _ _ => if k = "c" then [['M', 'Z', 'M']] else []

/-- A dictionary with no entries at all. -/
def d0 : Dict := fun _ _ _ => []

/-- A dictionary answering only for key "k" at length 2. -/
def dK : Dict := fun k l _ => if k = "k" ∧ l = 2 then [['N', 'O']] else []

/-- A three-slot board: slot 0 (vertical, single candidate XYZ) crosses the
placed slot 1 (value QQQ, mismatching at the shared cell) and the unplaced
slot 2 (candidates AZB and AWB). -/
def bd3 : Board :=
  { words :=
      [ { o := Orientation.Down, x := 1, y := 0, length := 3, key := some "a",
          candidates := [['X', 'Y', 'Z']], placed := false },
        { o := Orientation.Right, x := 0, y := 0, length := 3, key := some "b",
          candidates := [['Q', 'Q', 'Q']], placed := true },
        { o := Orientation.Right, x := 0, y := 2, length := 3, key := some "c",
          candidates := [['A', 'Z', 'B'], ['A', 'W', 'B']], placed := false } ],
    crossings := [[(1, 0, 1), (2, 2, 1)], [(0, 1, 0)], [(0, 1, 2)]],
    changed := false, state := State.Unsolved }

/-- A two-slot board: slot 0 (vertical, single candidate XYZ) crosses only
the unplaced slot 1 (candidates AZB and AWB) at offsets 2 and 1. -/
def bdc1 : Board :=
  { words :=
      [ { o := Orientation.Down, x := 1, y := 0, length := 3, key := some "a",
          candidates := [['X', 'Y', 'Z']], placed := false },
        { o := Orientation.Right, x := 0, y := 2, length := 3, key := some "c",
          candidates := [['A', 'Z', 'B'], ['A', 'W', 'B']], placed := false } ],
    crossings := [[(1, 2, 1)], [(0, 1, 2)]],
    changed := false, state := State.Unsolved }

/-- A board with a single already placed slot. -/
def bdW : Board :=
  { words :=
      [ { o := Orientation.Right, x := 0, y := 0, length := 2, key := some "w",
          candidates := [['A', 'B']], placed := true } ],
    crossings := [[]], changed := false, state := State.Unsolved }

/-- A board with a single unplaced slot holding exactly one candidate. -/
def bdY : Board :=
  { words :=
      [ { o := Orientation.Right, x := 0, y := 0, length := 2, key := some "w",
          candidates := [['A', 'B']], placed := false } ],
    crossings := [[]], changed := false, state := State.Unsolved }

/-- The board bdY after its slot is placed by the solver and the board is
classified as solved. -/
def bdZ : Board :=
  { words :=
      [ { o := Orientation.Right, x := 0, y := 0, length := 2, key := some "w",
          candidates := [['A', 'B']], placed := true } ],
    crossings := [[]], changed := true, state := State.Solved }

/-- A board with a single unplaced keyed slot and no candidates yet. -/
def bdK : Board :=
  { words :=
      [ { o := Orientation.Right, x := 0, y := 0, length := 2, key := some "k",
          candidates := [], placed := false } ],
    crossings := [[]], changed := false, state := State.Unsolved }

/-- A board with a single unplaced keyless (solution) slot that already
carries a candidate. -/
def bdn : Board :=
  { words :=
      [ { o := Orientation.Right, x := 0, y := 0, length := 2, key := none,
          candidates := [['A', 'B']], placed := false } ],
    crossings := [[]], changed := false, state := State.Unsolved }

/-- A leftward slot of length 3 anchored at (2, 1). -/
def wLeft : Word :=
  { o := Orientation.Left, x := 2, y := 1, length := 3, key := none,
    candidates := [], placed := false }

/-- An upward slot of length 3 anchored at (1, 2). -/
def wUp : Word :=
  { o := Orientation.Up, x := 1, y := 2, length := 3, key := none,
    candidates := [], placed := false }

/-- A rightward slot of length 3 anchored at (0, 0). -/
def wRight : Word :=
  { o := Orientation.Right, x := 0, y := 0, length := 3, key := none,
    candidates := [], placed := false }

/-- A downward slot of length 3 anchored at (1, 0). -/
def wDown1 : Word :=
  { o := Orientation.Down, x := 1, y := 0, length := 3, key := none,
    candidates := [], placed := false }

/-- A downward slot of length 3 anchored at (0, 0), touching the column of
wDown1 with overlapping rows. -/
def wDown0 : Word :=
  { o := Orientation.Down, x := 0, y := 0, length := 3, key := none,
    candidates := [], placed := false }

/-- Two word lists with the same solving skeleton: equal length, pointwise
equal placed flags and slot lengths, and equal entries where placed. -/
def SkelEq (ws1 ws2 : List Word) : Prop :=
  ws1.length = ws2.length ∧
    ∀ j, (ws1.getD j default).placed = (ws2.getD j default).placed ∧
      (ws1.getD j default).length = (ws2.getD j default).length ∧
      ((ws1.getD j default).placed = true → ws1.getD j default = ws2.getD j default)

theorem length_take_of_lt {α : Type _} {l : List α} {j : Nat} (h : j ≤ l.length) :
    (l.take j).length = j := by
  simp [List.length_take]
  omega

theorem length_swapRemove {α : Type _} [Inhabited α] (l : List α) (j : Nat) :
    (swapRemove l j).length = l.length - 1 := by
  simp [swapRemove]

theorem swapRemove_eq_last {α : Type _} [Inhabited α] (l : List α) (h : l.length - 1 < l.length) :
    swapRemove l (l.length - 1) = l.take (l.length - 1) := by
  unfold swapRemove
  rw [List.getD_eq_getElem _ _ h, List.set_eq_take_cons_drop _ h]
  have hd : l.drop (l.length - 1 + 1) = [] := List.drop_eq_nil_of_le (by omega)
  rw [hd]
  have : l.take (l.length - 1) ++ [l[l.length - 1]] = l.take (l.length - 1) ++ l[l.length - 1] :: [] := rfl
  rw [← this, List.dropLast_concat]

theorem swapRemove_eq_mid {α : Type _} [Inhabited α] (l : List α) (j : Nat)
    (h : j + 1 < l.length) :
    swapRemove l j =
      l.take j ++ l.getD (l.length - 1) default :: (l.drop (j + 1)).dropLast := by
  have hn : l.length - 1 < l.length := by omega
  have hj : j < l.length := by omega
  unfold swapRemove
  rw [List.set_eq_take_cons_drop _ hj]
  have hne : l.drop (j + 1) ≠ [] := by
    intro hnil
    have := congrArg List.length hnil
    simp [List.length_drop] at this
    omega
  have hlast : (l.drop (j + 1)).getLast hne = l.getD (l.length - 1) default := by
    rw [List.getLast_eq_getElem, List.getElem_drop, List.getD_eq_getElem _ _ hn]
    congr 1
    simp [List.length_drop]
    omega
  have hsplit : l.drop (j + 1) =
      (l.drop (j + 1)).dropLast ++ [l.getD (l.length - 1) default] := by
    rw [← hlast]
    exact (List.dropLast_concat_getLast hne).symm
  calc (l.take j ++ l.getD (l.length - 1) default :: l.drop (j + 1)).dropLast
      = ((l.take j ++ l.getD (l.length - 1) default ::
          (l.drop (j + 1)).dropLast) ++ [l.getD (l.length - 1) default]).dropLast := by
        rw [List.append_assoc, List.cons_append, ← hsplit]
    _ = l.take j ++ l.getD (l.length - 1) default :: (l.drop (j + 1)).dropLast :=
        List.dropLast_concat

theorem take_swapRemove {α : Type _} [Inhabited α] (l : List α) (j : Nat)
    (h : j < l.length) :
    (swapRemove l j).take j = l.take j := by
  rcases Nat.lt_or_ge (j + 1) l.length with hj | hj
  · rw [swapRemove_eq_mid l j hj]
    exact List.take_left' (length_take_of_lt (by omega))
  · have hje : j = l.length - 1 := by omega
    subst hje
    rw [swapRemove_eq_last l h, List.take_take]
    simp

theorem drop_swapRemove_perm {α : Type _} [Inhabited α] (l : List α) (j : Nat)
    (h : j < l.length) :
    List.Perm ((swapRemove l j).drop j) (l.drop (j + 1)) := by
  rcases Nat.lt_or_ge (j + 1) l.length with hj | hj
  · rw [swapRemove_eq_mid l j hj]
    rw [List.drop_left' (length_take_of_lt (by omega))]
    have hne : l.drop (j + 1) ≠ [] := by
      intro hnil
      have := congrArg List.length hnil
      simp [List.length_drop] at this
      omega
    have hn : l.length - 1 < l.length := by omega
    have hlast : (l.drop (j + 1)).getLast hne = l.getD (l.length - 1) default := by
      rw [List.getLast_eq_getElem, List.getElem_drop, List.getD_eq_getElem _ _ hn]
      congr 1
      simp [List.length_drop]
      omega
    have hsplit : (l.drop (j + 1)).dropLast ++ [l.getD (l.length - 1) default] =
        l.drop (j + 1) := by
      rw [← hlast]
      exact List.dropLast_concat_getLast hne
    refine List.Perm.trans ((List.perm_append_singleton _ _).symm) ?_
    rw [hsplit]
  · have hje : j = l.length - 1 := by omega
    subst hje
    rw [swapRemove_eq_last l h]
    have h1 : (l.take (l.length - 1)).drop (l.length - 1) = [] :=
      List.drop_eq_nil_of_le (by rw [List.length_take]; omega)
    have h2 : l.drop (l.length - 1 + 1) = [] := List.drop_eq_nil_of_le (by omega)
    rw [h1, h2]

theorem swapFilterAux_perm {α : Type _} [Inhabited α] (p : α → Bool) :
    ∀ (fuel : Nat) (l : List α) (j : Nat), l.length ≤ fuel + j →
      List.Perm (swapFilterAux p fuel l j) (l.take j ++ (l.drop j).filter p) := by
  intro fuel
  induction fuel with
  | zero =>
    intro l j hle
    simp only [swapFilterAux]
    rw [List.take_of_length_le (by omega), List.drop_eq_nil_of_le (by omega)]
    simp
  | succ f ih =>
    intro l j hle
    simp only [swapFilterAux]
    split
    · next hjl =>
      split
      · next hp =>
        have := ih l (j + 1) (by omega)
        refine this.trans ?_
        rw [List.drop_eq_getElem_cons hjl, List.filter_cons]
        have hg : l.get ⟨j, hjl⟩ = l[j] := rfl
        rw [hg] at hp
        rw [hp]
        have htake : l.take (j + 1) = l.take j ++ [l[j]] := by
          rw [← List.take_concat_get l j hjl, List.concat_eq_append]
        rw [htake, List.append_assoc]
        rfl
      · next hp =>
        have hlen : (swapRemove l j).length ≤ f + j := by
          rw [length_swapRemove]
          omega
        have := ih (swapRemove l j) j hlen
        refine this.trans ?_
        rw [take_swapRemove l j hjl]
        refine List.Perm.append_left _ ?_
        have hperm := drop_swapRemove_perm l j hjl
        refine (hperm.filter p).trans ?_
        rw [List.drop_eq_getElem_cons hjl, List.filter_cons]
        have hg : l.get ⟨j, hjl⟩ = l[j] := rfl
        rw [hg] at hp
        simp only [hp]
        simp
    · next hjl =>
      rw [List.take_of_length_le (by omega), List.drop_eq_nil_of_le (by omega)]
      simp

theorem swapFilter_perm {α : Type _} [Inhabited α] (p : α → Bool) (l : List α) :
    List.Perm (swapFilter p l) (l.filter p) := by
  have := swapFilterAux_perm p l.length l 0 (by omega)
  simpa [swapFilter] using this

theorem getD_set_ne {α : Type _} (l : List α) {i j : Nat} (hne : i ≠ j) (a d : α) :
    (l.set i a).getD j d = l.getD j d := by
  simp [List.getD_eq_getElem?_getD, List.getElem?_set_ne hne]

theorem getD_set_self {α : Type _} (l : List α) {i : Nat} (h : i < l.length) (a d : α) :
    (l.set i a).getD i d = a := by
  simp [List.getD_eq_getElem?_getD, List.getElem?_set_self h]

theorem getD_eq_get {α : Type _} (l : List α) {i : Nat} (h : i < l.length) (d : α) :
    l.getD i d = l.get ⟨i, h⟩ := by
  rw [List.getD_eq_getElem _ _ h]
  rfl

theorem set_getD_self {α : Type _} (l : List α) {i : Nat} (h : i < l.length) (d : α) :
    l.set i (l.getD i d) = l := by
  rw [List.getD_eq_getElem _ _ h]
  apply List.ext_getElem (by simp)
  intro n h1 h2
  rw [List.getElem_set]
  split
  · next he => subst he; rfl
  · rfl

theorem SkelEq_refl (ws : List Word) : SkelEq ws ws :=
  ⟨rfl, fun _ => ⟨rfl, rfl, fun _ => rfl⟩⟩

theorem SkelEq_trans {a b c : List Word} (h1 : SkelEq a b) (h2 : SkelEq b c) : SkelEq a c := by
  obtain ⟨hl1, hj1⟩ := h1
  obtain ⟨hl2, hj2⟩ := h2
  refine ⟨hl1.trans hl2, fun j => ?_⟩
  obtain ⟨p1, q1, r1⟩ := hj1 j
  obtain ⟨p2, q2, r2⟩ := hj2 j
  refine ⟨p1.trans p2, q1.trans q2, fun hp => ?_⟩
  rw [r1 hp, r2 (p1 ▸ hp)]

theorem hintFold_congr {ws1 ws2 : List Word}
    (h : ∀ j, (ws1.getD j default).placed = (ws2.getD j default).placed ∧
      ((ws1.getD j default).placed = true → ws1.getD j default = ws2.getD j default)) :
    ∀ (es : List (Nat × Nat × Nat)) (v : List Char),
      es.foldl
        (fun v e =>
          let wb := ws1.getD e.1 default
          if wb.placed then v.set e.2.1 (wb.char_at e.2.2) else v) v =
      es.foldl
        (fun v e =>
          let wb := ws2.getD e.1 default
          if wb.placed then v.set e.2.1 (wb.char_at e.2.2) else v) v := by
  intro es
  induction es with
  | nil => intro v; rfl
  | cons e rest ih =>
    intro v
    simp only [List.foldl_cons]
    obtain ⟨hp, he⟩ := h e.1
    by_cases hpl : (ws1.getD e.1 default).placed
    · rw [if_pos hpl, if_pos (hp.symm.trans hpl), he hpl]
      exact ih _
    · rw [if_neg hpl, if_neg (fun hc => hpl (hp.trans hc))]
      exact ih _

theorem get_hints_congr {ws1 ws2 : List Word} (cr : List (List (Nat × Nat × Nat)))
    (a : Nat) (h : SkelEq ws1 ws2) :
    get_hints ws1 cr a = get_hints ws2 cr a := by
  obtain ⟨hlen, hj⟩ := h
  obtain ⟨hp, hl, he⟩ := hj a
  by_cases hpl : (ws1.getD a default).placed
  · simp only [get_hints]
    rw [if_pos hpl, if_pos (hp.symm.trans hpl), he hpl]
  · simp only [get_hints]
    rw [if_neg hpl, if_neg (fun hc => hpl (hp.trans hc)), hl]
    split
    · exact hintFold_congr (fun j => ⟨(hj j).1, (hj j).2.2⟩) _ _
    · rfl

theorem refreshStep_length (dict : Dict) (cr : List (List (Nat × Nat × Nat)))
    (ws : List Word) (i : Nat) (h : i < ws.length) :
    (refreshStep dict cr ws i h).length = ws.length := by
  simp only [refreshStep]
  split
  · rfl
  · split <;> simp

theorem refreshStep_getD_ne (dict : Dict) (cr : List (List (Nat × Nat × Nat)))
    (ws : List Word) (i : Nat) (h : i < ws.length) {j : Nat} (hne : j ≠ i) (d : Word) :
    (refreshStep dict cr ws i h).getD j d = ws.getD j d := by
  simp only [refreshStep]
  split
  · rfl
  · split
    · exact getD_set_ne ws (fun he => hne he.symm) _ _
    · rfl

theorem refreshStep_getD_self (dict : Dict) (cr : List (List (Nat × Nat × Nat)))
    (ws : List Word) (i : Nat) (h : i < ws.length) :
    (refreshStep dict cr ws i h).getD i default =
      (if (ws.getD i default).placed then ws.getD i default
       else
         match (ws.getD i default).key with
         | some k =>
           { ws.getD i default with
             candidates := dict k (ws.getD i default).length (get_hints ws cr i) }
         | none => ws.getD i default) := by
  rw [getD_eq_get ws h default]
  simp only [refreshStep]
  split
  · exact getD_eq_get ws h default
  · split
    · exact getD_set_self ws h _ _
    · exact getD_eq_get ws h default

theorem refreshStep_skel (dict : Dict) (cr : List (List (Nat × Nat × Nat)))
    (ws : List Word) (i : Nat) (h : i < ws.length) :
    SkelEq ws (refreshStep dict cr ws i h) := by
  refine ⟨(refreshStep_length dict cr ws i h).symm, fun j => ?_⟩
  by_cases hji : j = i
  · subst hji
    rw [refreshStep_getD_self dict cr ws j h]
    split
    · exact ⟨rfl, rfl, fun _ => rfl⟩
    · next hpl =>
      split
      · exact ⟨rfl, rfl, fun hc => absurd hc hpl⟩
      · exact ⟨rfl, rfl, fun _ => rfl⟩
  · rw [refreshStep_getD_ne dict cr ws i h hji]
    exact ⟨rfl, rfl, fun _ => rfl⟩

theorem refreshFrom_length (dict : Dict) (cr : List (List (Nat × Nat × Nat))) :
    ∀ (fuel : Nat) (ws : List Word) (i : Nat),
      (refreshFrom dict cr fuel ws i).length = ws.length := by
  intro fuel
  induction fuel with
  | zero => intro ws i; rfl
  | succ f ih =>
    intro ws i
    simp only [refreshFrom]
    split
    · next h => rw [ih, refreshStep_length]
    · rfl

theorem refreshFrom_getD_lt (dict : Dict) (cr : List (List (Nat × Nat × Nat))) :
    ∀ (fuel : Nat) (ws : List Word) (i j : Nat), j < i →
      (refreshFrom dict cr fuel ws i).getD j default = ws.getD j default := by
  intro fuel
  induction fuel with
  | zero => intro ws i j _; rfl
  | succ f ih =>
    intro ws i j hj
    simp only [refreshFrom]
    split
    · next h =>
      rw [ih _ _ _ (by omega), refreshStep_getD_ne dict cr ws i h (by omega)]
    · rfl

theorem refreshFrom_skel (dict : Dict) (cr : List (List (Nat × Nat × Nat))) :
    ∀ (fuel : Nat) (ws : List Word) (i : Nat),
      SkelEq ws (refreshFrom dict cr fuel ws i) := by
  intro fuel
  induction fuel with
  | zero => intro ws i; exact SkelEq_refl ws
  | succ f ih =>
    intro ws i
    simp only [refreshFrom]
    split
    · next h => exact SkelEq_trans (refreshStep_skel dict cr ws i h) (ih _ _)
    · exact SkelEq_refl ws

theorem refreshFrom_getD (dict : Dict) (cr : List (List (Nat × Nat × Nat))) :
    ∀ (fuel : Nat) (ws : List Word) (i j : Nat), ws.length ≤ fuel + i → i ≤ j →
      j < ws.length →
      (refreshFrom dict cr fuel ws i).getD j default =
        (if (ws.getD j default).placed then ws.getD j default
         else
           match (ws.getD j default).key with
           | some k =>
             { ws.getD j default with
               candidates := dict k (ws.getD j default).length (get_hints ws cr j) }
           | none => ws.getD j default) := by
  intro fuel
  induction fuel with
  | zero => intro ws i j h1 h2 h3; omega
  | succ f ih =>
    intro ws i j h1 h2 h3
    simp only [refreshFrom]
    split
    · next h =>
      by_cases hji : j = i
      · subst hji
        rw [refreshFrom_getD_lt dict cr f _ (j + 1) j (by omega)]
        exact refreshStep_getD_self dict cr ws j h
      · have hstep := refreshStep_skel dict cr ws i h
        have hlen : (refreshStep dict cr ws i h).length = ws.length :=
          refreshStep_length dict cr ws i h
        rw [ih (refreshStep dict cr ws i h) (i + 1) j (by omega) (by omega) (by omega)]
        rw [refreshStep_getD_ne dict cr ws i h hji]
        rw [get_hints_congr cr j hstep]
    · next h => omega

theorem refresh_candidates_words_getD (dict : Dict) (bd : Board) (j : Nat)
    (hj : j < bd.words.length) :
    (bd.refresh_candidates dict).words.getD j default =
      (if (bd.words.getD j default).placed then bd.words.getD j default
       else
         match (bd.words.getD j default).key with
         | some k =>
           { bd.words.getD j default with
             candidates :=
               dict k (bd.words.getD j default).length (get_hints bd.words bd.crossings j) }
         | none => bd.words.getD j default) :=
  refreshFrom_getD dict bd.crossings bd.words.length bd.words 0 j (by omega) (by omega) hj

theorem refresh_candidates_words_length (dict : Dict) (bd : Board) :
    (bd.refresh_candidates dict).words.length = bd.words.length :=
  refreshFrom_length dict bd.crossings bd.words.length bd.words 0

theorem refresh_candidates_skel (dict : Dict) (bd : Board) :
    SkelEq bd.words (bd.refresh_candidates dict).words :=
  refreshFrom_skel dict bd.crossings bd.words.length bd.words 0

theorem hintFold_length (ws : List Word) :
    ∀ (es : List (Nat × Nat × Nat)) (v : List Char),
      (es.foldl
        (fun v e =>
          let wb := ws.getD e.1 default
          if wb.placed then v.set e.2.1 (wb.char_at e.2.2) else v) v).length = v.length := by
  intro es
  induction es with
  | nil => intro v; rfl
  | cons e rest ih =>
    intro v
    simp only [List.foldl_cons]
    rw [ih]
    split <;> simp

theorem hintFold_getD_of_none (ws : List Word) :
    ∀ (es : List (Nat × Nat × Nat)) (v : List Char) (j : Nat) (d : Char),
      (∀ e ∈ es, (ws.getD e.1 default).placed = true → e.2.1 ≠ j) →
      (es.foldl
        (fun v e =>
          let wb := ws.getD e.1 default
          if wb.placed then v.set e.2.1 (wb.char_at e.2.2) else v) v).getD j d = v.getD j d := by
  intro es
  induction es with
  | nil => intro v j d _; rfl
  | cons e rest ih =>
    intro v j d hnone
    simp only [List.foldl_cons]
    rw [ih _ _ _ (fun e2 he2 => hnone e2 (List.mem_cons_of_mem e he2))]
    split
    · next hpl => exact getD_set_ne v (hnone e (List.mem_cons_self e rest) hpl) _ _
    · rfl

theorem hintFold_getD_of_mem (ws : List Word) :
    ∀ (es : List (Nat × Nat × Nat)) (v : List Char) (e : Nat × Nat × Nat),
      List.Pairwise (fun e1 e2 => e1.2.1 ≠ e2.2.1) es → e ∈ es →
      (ws.getD e.1 default).placed = true → e.2.1 < v.length →
      (es.foldl
        (fun v e =>
          let wb := ws.getD e.1 default
          if wb.placed then v.set e.2.1 (wb.char_at e.2.2) else v) v).getD e.2.1 '?' =
        (ws.getD e.1 default).char_at e.2.2 := by
  intro es
  induction es with
  | nil => intro v e _ he; cases he
  | cons e1 rest ih =>
    intro v e hpw he hpl hlt
    rcases List.mem_cons.mp he with he1 | hrest
    · subst he1
      simp only [List.foldl_cons]
      rw [if_pos hpl]
      rw [hintFold_getD_of_none ws rest _ e.2.1 '?'
        (fun e2 he2 _ => ((List.pairwise_cons.mp hpw).1 e2 he2).symm)]
      exact getD_set_self v hlt _ _
    · simp only [List.foldl_cons]
      have hstep :
          (if (ws.getD e1.1 default).placed = true then
            v.set e1.2.1 ((ws.getD e1.1 default).char_at e1.2.2)
          else v).length = v.length := by
        split <;> simp
      exact ih _ e (List.pairwise_cons.mp hpw).2 hrest hpl (hstep.symm ▸ hlt)

theorem get_hints_length (bd : Board) (a : Nat)
    (hp : (bd.words.getD a default).placed = false) :
    (get_hints bd.words bd.crossings a).length = (bd.words.getD a default).length := by
  simp only [get_hints]
  rw [if_neg (by rw [hp]; simp)]
  split
  · rw [hintFold_length]
    simp
  · simp

theorem get_hints_getD_none (bd : Board) (a j : Nat)
    (hp : (bd.words.getD a default).placed = false)
    (hj : j < (bd.words.getD a default).length)
    (hnone : ∀ e ∈ bd.crossings.getD a [],
      (bd.words.getD e.1 default).placed = true → e.2.1 ≠ j) :
    (get_hints bd.words bd.crossings a).getD j '?' = '.' := by
  simp only [get_hints]
  rw [if_neg (by rw [hp]; simp)]
  have hrep : (List.replicate (bd.words.getD a default).length '.').getD j '?' = '.' := by
    rw [List.getD_eq_getElem _ _ (by rw [List.length_replicate]; exact hj)]
    simp
  split
  · rw [hintFold_getD_of_none bd.words _ _ j '?' hnone]
    exact hrep
  · exact hrep

theorem get_hints_getD_mem (bd : Board) (a : Nat) (e : Nat × Nat × Nat)
    (hp : (bd.words.getD a default).placed = false)
    (ha : a < bd.crossings.length)
    (hpw : List.Pairwise (fun e1 e2 => e1.2.1 ≠ e2.2.1) (bd.crossings.getD a []))
    (he : e ∈ bd.crossings.getD a [])
    (hpl : (bd.words.getD e.1 default).placed = true)
    (hlt : e.2.1 < (bd.words.getD a default).length) :
    (get_hints bd.words bd.crossings a).getD e.2.1 '?' =
      (bd.words.getD e.1 default).char_at e.2.2 := by
  simp only [get_hints]
  rw [if_neg (by rw [hp]; simp), if_pos ha]
  exact hintFold_getD_of_mem bd.words _ _ e hpw he hpl
    (by rw [List.length_replicate]; exact hlt)

theorem classFold_init_le :
    ∀ (ws : List Word) (a : Int),
      a ≤ ws.foldl
        (fun m w => if w.placed then m else max m ((w.candidates.length : Int))) a := by
  intro ws
  induction ws with
  | nil => intro a; exact le_refl a
  | cons w rest ih =>
    intro a
    simp only [List.foldl_cons]
    split
    · exact ih a
    · exact le_trans (le_max_left _ _) (ih _)

theorem classFold_mem_le :
    ∀ (ws : List Word) (a : Int) (w : Word), w ∈ ws → w.placed = false →
      (w.candidates.length : Int) ≤ ws.foldl
        (fun m w => if w.placed then m else max m ((w.candidates.length : Int))) a := by
  intro ws
  induction ws with
  | nil => intro a w hw; cases hw
  | cons w1 rest ih =>
    intro a w hw hp
    rcases List.mem_cons.mp hw with he | hrest
    · subst he
      simp only [List.foldl_cons]
      rw [if_neg (by simp [hp])]
      exact le_trans (le_max_right _ _) (classFold_init_le rest _)
    · simp only [List.foldl_cons]
      split
      · exact ih a w hrest hp
      · exact ih _ w hrest hp

theorem classFold_cases :
    ∀ (ws : List Word) (a : Int),
      ws.foldl
        (fun m w => if w.placed then m else max m ((w.candidates.length : Int))) a = a ∨
      ∃ w ∈ ws, w.placed = false ∧
        ws.foldl
          (fun m w => if w.placed then m else max m ((w.candidates.length : Int))) a =
          (w.candidates.length : Int) := by
  intro ws
  induction ws with
  | nil => intro a; exact Or.inl rfl
  | cons w1 rest ih =>
    intro a
    simp only [List.foldl_cons]
    split
    · next hp =>
      rcases ih a with h | ⟨w, hw, hp2, he⟩
      · exact Or.inl h
      · exact Or.inr ⟨w, List.mem_cons_of_mem _ hw, hp2, he⟩
    · next hp =>
      rcases ih (max a ((w1.candidates.length : Int))) with h | ⟨w, hw, hp2, he⟩
      · rcases max_choice a ((w1.candidates.length : Int)) with hm | hm
        · exact Or.inl (h.trans hm)
        · exact Or.inr ⟨w1, List.mem_cons_self _ _, by simpa using hp, h.trans hm⟩
      · exact Or.inr ⟨w, List.mem_cons_of_mem _ hw, hp2, he⟩

theorem classFold_le :
    ∀ (ws : List Word) (a n : Int), a ≤ n →
      (∀ w ∈ ws, w.placed = false → (w.candidates.length : Int) ≤ n) →
      ws.foldl
        (fun m w => if w.placed then m else max m ((w.candidates.length : Int))) a ≤ n := by
  intro ws
  induction ws with
  | nil => intro a n h _; exact h
  | cons w1 rest ih =>
    intro a n h hb
    simp only [List.foldl_cons]
    split
    · exact ih a n h (fun w hw => hb w (List.mem_cons_of_mem _ hw))
    · next hp =>
      refine ih _ n (max_le h ?_) (fun w hw => hb w (List.mem_cons_of_mem _ hw))
      exact hb w1 (List.mem_cons_self _ _) (by simpa using hp)

theorem classifyMax_mem_le (ws : List Word) (w : Word) (hw : w ∈ ws)
    (hp : w.placed = false) : (w.candidates.length : Int) ≤ classifyMax ws :=
  classFold_mem_le ws (-1) w hw hp

theorem classifyMax_cases (ws : List Word) :
    classifyMax ws = -1 ∨ ∃ w ∈ ws, w.placed = false ∧
      classifyMax ws = (w.candidates.length : Int) :=
  classFold_cases ws (-1)

theorem classifyMax_le (ws : List Word) (n : Int) (h : -1 ≤ n)
    (hb : ∀ w ∈ ws, w.placed = false → (w.candidates.length : Int) ≤ n) :
    classifyMax ws ≤ n :=
  classFold_le ws (-1) n h hb

theorem classify_spec (ws : List Word) :
    ((∀ w ∈ ws, w.placed = true) → classify ws = State.Solved) ∧
    ((∃ w ∈ ws, w.placed = false) →
      (∀ w ∈ ws, w.placed = false → w.candidates.length = 0) →
      classify ws = State.Unsolvable) ∧
    ((∃ w ∈ ws, w.placed = false ∧ w.candidates.length = 1) →
      (∀ w ∈ ws, w.placed = false → w.candidates.length ≤ 1) →
      classify ws = State.Unsolved) ∧
    ((∃ w ∈ ws, w.placed = false ∧ 2 ≤ w.candidates.length) →
      classify ws = State.Ambiguous) := by
  refine ⟨?_, ?_, ?_, ?_⟩
  · intro hall
    have hm : classifyMax ws = -1 := by
      rcases classifyMax_cases ws with h | ⟨w, hw, hp, _⟩
      · exact h
      · rw [hall w hw] at hp
        cases hp
    simp [classify, hm]
  · rintro ⟨w0, hw0, hp0⟩ hall
    have h1 := classifyMax_mem_le ws w0 hw0 hp0
    have h2 : classifyMax ws ≤ 0 := by
      refine classifyMax_le ws 0 (by omega) ?_
      intro w hw hp
      rw [hall w hw hp]
      omega
    have hm : classifyMax ws = 0 := by omega
    simp [classify, hm]
  · rintro ⟨w0, hw0, hp0, hl0⟩ hall
    have h1 := classifyMax_mem_le ws w0 hw0 hp0
    rw [hl0] at h1
    have h2 : classifyMax ws ≤ 1 := by
      refine classifyMax_le ws 1 (by omega) ?_
      intro w hw hp
      have := hall w hw hp
      omega
    have hm : classifyMax ws = 1 := by omega
    simp [classify, hm]
  · rintro ⟨w0, hw0, hp0, hl0⟩
    have h1 := classifyMax_mem_le ws w0 hw0 hp0
    have h2 : (2 : Int) ≤ (w0.candidates.length : Int) := by omega
    have hm1 : classifyMax ws ≠ -1 := by omega
    have hm2 : classifyMax ws ≠ 0 := by omega
    have hm3 : classifyMax ws ≠ 1 := by omega
    simp [classify, hm1, hm2, hm3]

theorem solveFold_snd_false (dict : Dict) :
    ∀ (l : List Nat) (acc : Board × Bool), acc.2 = false →
      (l.foldl (solveStep dict) acc).2 = false := by
  intro l
  induction l with
  | nil => intro acc h; exact h
  | cons i rest ih =>
    intro acc h
    simp only [List.foldl_cons]
    refine ih _ ?_
    simp only [solveStep]
    split
    · exact h
    · split
      · rfl
      · exact h

theorem solveFold_done (dict : Dict) :
    ∀ (l : List Nat) (b : Board),
      (l.foldl (solveStep dict) (b, true)).2 = true →
      (l.foldl (solveStep dict) (b, true)).1 = b ∧
        ∀ i ∈ l, ¬((b.words.getD i default).placed = false ∧
          (b.words.getD i default).has_one_candidate = true) := by
  intro l
  induction l with
  | nil => intro b _; exact ⟨rfl, fun i hi => absurd hi (List.not_mem_nil i)⟩
  | cons i rest ih =>
    intro b h
    by_cases hpl : (b.words.getD i default).placed = true
    · have hstep : solveStep dict (b, true) i = (b, true) := by
        simp only [solveStep]
        rw [if_pos hpl]
      rw [List.foldl_cons, hstep] at h ⊢
      obtain ⟨h1, h2⟩ := ih b h
      refine ⟨h1, fun j hj => ?_⟩
      rcases List.mem_cons.mp hj with he | hr
      · subst he
        intro hc
        rw [hc.1] at hpl
        cases hpl
      · exact h2 j hr
    · by_cases hone : (b.words.getD i default).has_one_candidate = true
      · have hstep : solveStep dict (b, true) i = (Board.place dict b i none, false) := by
          simp only [solveStep]
          rw [if_neg hpl, if_pos hone]
        rw [List.foldl_cons, hstep] at h
        have hfalse := solveFold_snd_false dict rest (Board.place dict b i none, false) rfl
        rw [hfalse] at h
        cases h
      · have hstep : solveStep dict (b, true) i = (b, true) := by
          simp only [solveStep]
          rw [if_neg hpl, if_neg hone]
        rw [List.foldl_cons, hstep] at h ⊢
        obtain ⟨h1, h2⟩ := ih b h
        refine ⟨h1, fun j hj => ?_⟩
        rcases List.mem_cons.mp hj with he | hr
        · subst he
          intro hc
          exact hone hc.2
        · exact h2 j hr

theorem solvePass_done (dict : Dict) (bd : Board)
    (h : (solvePass dict bd).2 = true) :
    (solvePass dict bd).1 = bd ∧
      ∀ i, i < bd.words.length → ¬((bd.words.getD i default).placed = false ∧
        (bd.words.getD i default).has_one_candidate = true) := by
  obtain ⟨h1, h2⟩ := solveFold_done dict (List.range bd.words.length) bd h
  exact ⟨h1, fun i hi => h2 i (List.mem_range.mpr hi)⟩

theorem solveLoop_no_single (dict : Dict) :
    ∀ (fuel : Nat) (bd bd2 : Board), solveLoop dict fuel bd = some bd2 →
      ∀ i, i < bd2.words.length → ¬((bd2.words.getD i default).placed = false ∧
        (bd2.words.getD i default).has_one_candidate = true) := by
  intro fuel
  induction fuel with
  | zero => intro bd bd2 h; cases h
  | succ f ih =>
    intro bd bd2 h
    simp only [solveLoop] at h
    rcases hsp : solvePass dict bd with ⟨b2, done⟩
    rw [hsp] at h
    cases done
    · exact ih b2 bd2 h
    · have hb : b2 = bd2 := by
        simpa using h
      have hd := solvePass_done dict bd (by rw [hsp])
      obtain ⟨h1, h2⟩ := hd
      have hb2 : b2 = bd := by
        rw [hsp] at h1
        exact h1
      subst hb
      rw [hb2]
      exact h2

theorem getD_of_length_le {α : Type _} (l : List α) {i : Nat} (h : l.length ≤ i) (d : α) :
    l.getD i d = d := by
  simp [List.getD_eq_getElem?_getD, List.getElem?_eq_none h]

theorem placeStep_getD_ne (w : Word) (acc : List Word × List Nat)
    (e : Nat × Nat × Nat) {j : Nat} (hne : e.1 ≠ j) :
    ((placeStep w acc e).1).getD j default = acc.1.getD j default := by
  simp only [placeStep]
  split
  · split
    · rfl
    · rfl
  · exact getD_set_ne acc.1 hne _ _

theorem placeStep_length (w : Word) (acc : List Word × List Nat) (e : Nat × Nat × Nat) :
    ((placeStep w acc e).1).length = acc.1.length := by
  simp only [placeStep]
  split
  · split
    · rfl
    · rfl
  · simp

theorem placeFold_length (w : Word) :
    ∀ (es : List (Nat × Nat × Nat)) (acc : List Word × List Nat),
      ((es.foldl (placeStep w) acc).1).length = acc.1.length := by
  intro es
  induction es with
  | nil => intro acc; rfl
  | cons e rest ih =>
    intro acc
    simp only [List.foldl_cons]
    rw [ih, placeStep_length]

theorem placeFold_unp_mono (w : Word) :
    ∀ (es : List (Nat × Nat × Nat)) (acc : List Word × List Nat) (u : Nat),
      u ∈ acc.2 → u ∈ (es.foldl (placeStep w) acc).2 := by
  intro es
  induction es with
  | nil => intro acc u h; exact h
  | cons e rest ih =>
    intro acc u h
    simp only [List.foldl_cons]
    refine ih _ u ?_
    simp only [placeStep]
    split
    · split
      · exact h
      · exact List.mem_append_left _ h
    · exact h

theorem placeFold_untouched (w : Word) :
    ∀ (es : List (Nat × Nat × Nat)) (acc : List Word × List Nat) (j : Nat),
      (∀ e ∈ es, e.1 ≠ j) →
      ((es.foldl (placeStep w) acc).1).getD j default = acc.1.getD j default := by
  intro es
  induction es with
  | nil => intro acc j _; rfl
  | cons e rest ih =>
    intro acc j hne
    simp only [List.foldl_cons]
    rw [ih _ j (fun e2 he2 => hne e2 (List.mem_cons_of_mem e he2))]
    exact placeStep_getD_ne w acc e (hne e (List.mem_cons_self e rest))

theorem placeFold_mem_unp (w : Word) :
    ∀ (es : List (Nat × Nat × Nat)) (acc : List Word × List Nat),
      (es.map (fun e => e.1)).Nodup →
      ∀ e ∈ es, (acc.1.getD e.1 default).placed = true →
        ¬(((acc.1.getD e.1 default).char_at e.2.2 == w.char_at e.2.1) = true) →
        e.1 ∈ (es.foldl (placeStep w) acc).2 := by
  intro es
  induction es with
  | nil => intro acc _ e he; cases he
  | cons e1 rest ih =>
    intro acc hnd e he hpl hmis
    have hnd' : (e1.1 :: rest.map (fun e => e.1)).Nodup := by simpa using hnd
    have hnd2 := List.nodup_cons.mp hnd'
    rcases List.mem_cons.mp he with he1 | hrest
    · subst he1
      simp only [List.foldl_cons]
      refine placeFold_unp_mono w rest _ e.1 ?_
      simp only [placeStep]
      rw [if_pos hpl, if_neg hmis]
      exact List.mem_append_right _ (List.mem_singleton_self _)
    · simp only [List.foldl_cons]
      have hne : e1.1 ≠ e.1 := by
        intro hc
        exact hnd2.1 (by simpa [hc] using List.mem_map_of_mem (fun e => e.1) hrest)
      have hgetD := placeStep_getD_ne w acc e1 hne
      refine ih _ hnd2.2 e hrest ?_ ?_
      · rw [hgetD]; exact hpl
      · rw [hgetD]; exact hmis

theorem placeFold_no_unp (w : Word) :
    ∀ (es : List (Nat × Nat × Nat)) (acc : List Word × List Nat),
      (es.map (fun e => e.1)).Nodup →
      (∀ e ∈ es, (acc.1.getD e.1 default).placed = true →
        ((acc.1.getD e.1 default).char_at e.2.2 == w.char_at e.2.1) = true) →
      (es.foldl (placeStep w) acc).2 = acc.2 := by
  intro es
  induction es with
  | nil => intro acc _ _; rfl
  | cons e1 rest ih =>
    intro acc hnd hmatch
    have hnd' : (e1.1 :: rest.map (fun e => e.1)).Nodup := by simpa using hnd
    have hnd2 := List.nodup_cons.mp hnd'
    simp only [List.foldl_cons]
    have hstep2 : (placeStep w acc e1).2 = acc.2 := by
      simp only [placeStep]
      split
      · next hpl =>
        rw [if_pos (hmatch e1 (List.mem_cons_self e1 rest) hpl)]
      · rfl
    have htransfer : ∀ e ∈ rest, ((placeStep w acc e1).1.getD e.1 default).placed = true →
        (((placeStep w acc e1).1.getD e.1 default).char_at e.2.2 == w.char_at e.2.1) = true := by
      intro e hrest
      have hne : e1.1 ≠ e.1 := by
        intro hc
        exact hnd2.1 (by simpa [hc] using List.mem_map_of_mem (fun e => e.1) hrest)
      rw [placeStep_getD_ne w acc e1 hne]
      exact hmatch e (List.mem_cons_of_mem e1 hrest)
    rw [ih _ hnd2.2 htransfer, hstep2]

theorem placeFold_filter (w : Word) :
    ∀ (es : List (Nat × Nat × Nat)) (acc : List Word × List Nat),
      (es.map (fun e => e.1)).Nodup →
      ∀ e ∈ es, (acc.1.getD e.1 default).placed = false → e.1 < acc.1.length →
        ((es.foldl (placeStep w) acc).1).getD e.1 default =
          { acc.1.getD e.1 default with
            candidates :=
              swapFilter (fun c => c.getD e.2.2 '?' == w.char_at e.2.1)
                (acc.1.getD e.1 default).candidates } := by
  intro es
  induction es with
  | nil => intro acc _ e he; cases he
  | cons e1 rest ih =>
    intro acc hnd e he hpl hlt
    have hnd' : (e1.1 :: rest.map (fun e => e.1)).Nodup := by simpa using hnd
    have hnd2 := List.nodup_cons.mp hnd'
    rcases List.mem_cons.mp he with he1 | hrest
    · subst he1
      simp only [List.foldl_cons]
      have hnotin : ∀ e2 ∈ rest, e2.1 ≠ e.1 := by
        intro e2 he2 hc
        exact hnd2.1 (by simpa [← hc] using List.mem_map_of_mem (fun e => e.1) he2)
      rw [placeFold_untouched w rest _ e.1 hnotin]
      simp only [placeStep]
      rw [if_neg (by rw [hpl]; simp)]
      exact getD_set_self acc.1 hlt _ _
    · simp only [List.foldl_cons]
      have hne : e1.1 ≠ e.1 := by
        intro hc
        exact hnd2.1 (by simpa [hc] using List.mem_map_of_mem (fun e => e.1) hrest)
      have hgetD := placeStep_getD_ne w acc e1 hne
      rw [ih _ hnd2.2 e hrest (by rw [hgetD]; exact hpl)
        (by rw [placeStep_length]; exact hlt), hgetD]

theorem unplace_words_length (dict : Dict) (bd : Board) (ix : Nat) :
    (Board.unplace dict bd ix).words.length = bd.words.length := by
  simp only [Board.unplace]
  rw [refreshFrom_length]
  simp

theorem unplace_changed (dict : Dict) (bd : Board) (ix : Nat) :
    (Board.unplace dict bd ix).changed = bd.changed := rfl

theorem unplace_placed_self (dict : Dict) (bd : Board) (ix : Nat) :
    ((Board.unplace dict bd ix).words.getD ix default).placed = false := by
  simp only [Board.unplace]
  have hskel := refreshFrom_skel dict bd.crossings
    (bd.words.set ix (bd.words.getD ix default).unplace).length
    (bd.words.set ix (bd.words.getD ix default).unplace) 0
  rw [← (hskel.2 ix).1]
  by_cases hlt : ix < bd.words.length
  · rw [getD_set_self bd.words hlt _ _]
    rfl
  · rw [getD_of_length_le _ (by simp; omega) default]
    rfl

theorem unplace_placed_ne (dict : Dict) (bd : Board) (ix : Nat) {j : Nat} (hne : j ≠ ix) :
    ((Board.unplace dict bd ix).words.getD j default).placed =
      ((bd.words.getD j default)).placed := by
  simp only [Board.unplace]
  have hskel := refreshFrom_skel dict bd.crossings
    (bd.words.set ix (bd.words.getD ix default).unplace).length
    (bd.words.set ix (bd.words.getD ix default).unplace) 0
  rw [← (hskel.2 j).1]
  rw [getD_set_ne bd.words (fun hc => hne hc.symm) _ _]

theorem unplaceFold_placed_false (dict : Dict) :
    ∀ (us : List Nat) (b : Board) (j : Nat),
      ((b.words.getD j default).placed = false) →
      ((us.foldl (fun b u => Board.unplace dict b u) b).words.getD j default).placed = false := by
  intro us
  induction us with
  | nil => intro b j h; exact h
  | cons u rest ih =>
    intro b j h
    simp only [List.foldl_cons]
    refine ih _ j ?_
    by_cases hje : j = u
    · subst hje
      exact unplace_placed_self dict b j
    · rw [unplace_placed_ne dict b u hje]
      exact h

theorem unplaceFold_mem (dict : Dict) :
    ∀ (us : List Nat) (b : Board) (j : Nat), j ∈ us →
      ((us.foldl (fun b u => Board.unplace dict b u) b).words.getD j default).placed = false := by
  intro us
  induction us with
  | nil => intro b j h; cases h
  | cons u rest ih =>
    intro b j h
    rcases List.mem_cons.mp h with he | hr
    · subst he
      simp only [List.foldl_cons]
      exact unplaceFold_placed_false dict rest _ j (unplace_placed_self dict b j)
    · simp only [List.foldl_cons]
      exact ih _ j hr

theorem is_crossing_symm_aux (a b : Word) :
    Word.is_crossing a b = Word.is_crossing b a := by
  rcases h1 : a.o <;> rcases h2 : b.o <;>
    simp [Word.is_crossing, Orientation.same_or_opposite_direction,
      Orientation.is_horizontal, Orientation.is_vertical, h1, h2]

theorem interval_cross_iff (ax1 ax2 ay bx by1 by2 : Nat) :
    (ax1 ≤ bx ∧ bx ≤ ax2 ∧ by1 ≤ ay ∧ ay ≤ by2) ↔
      ∃! p : Nat × Nat,
        ((ax1 ≤ p.1 ∧ p.1 ≤ ax2 ∧ ay ≤ p.2 ∧ p.2 ≤ ay) ∧
          (bx ≤ p.1 ∧ p.1 ≤ bx ∧ by1 ≤ p.2 ∧ p.2 ≤ by2)) := by
  constructor
  · rintro ⟨h1, h2, h3, h4⟩
    refine ⟨(bx, ay), ⟨⟨h1, h2, le_refl _, le_refl _⟩, le_refl _, le_refl _, h3, h4⟩, ?_⟩
    rintro ⟨q1, q2⟩ ⟨⟨_, _, hq3, hq4⟩, hq5, hq6, _, _⟩
    simp only [Prod.mk.injEq]
    omega
  · rintro ⟨⟨p1, p2⟩, ⟨⟨hp1, hp2, hp3, hp4⟩, hp5, hp6, hp7, hp8⟩, _⟩
    omega

theorem interval_cross_iff_swap (ax1 ax2 ay bx by1 by2 : Nat) :
    (ax1 ≤ bx ∧ bx ≤ ax2 ∧ by1 ≤ ay ∧ ay ≤ by2) ↔
      ∃! p : Nat × Nat,
        ((bx ≤ p.1 ∧ p.1 ≤ bx ∧ by1 ≤ p.2 ∧ p.2 ≤ by2) ∧
          (ax1 ≤ p.1 ∧ p.1 ≤ ax2 ∧ ay ≤ p.2 ∧ p.2 ≤ ay)) := by
  constructor
  · rintro ⟨h1, h2, h3, h4⟩
    refine ⟨(bx, ay), ⟨⟨le_refl _, le_refl _, h3, h4⟩, h1, h2, le_refl _, le_refl _⟩, ?_⟩
    rintro ⟨q1, q2⟩ ⟨⟨hq1, hq2, _, _⟩, _, _, hq3, hq4⟩
    simp only [Prod.mk.injEq]
    omega
  · rintro ⟨⟨p1, p2⟩, ⟨⟨hp1, hp2, hp3, hp4⟩, hp5, hp6, hp7, hp8⟩, _⟩
    omega

/-- Claim C4: for well-formed crossing slots, the offsets recorded by the
crossing index construction of Board::from_file (absolute anchor
differences, the x difference going to the horizontal slot) are in range
and name the same grid cell in both slots, for all four orientations
including the reversed ones. -/
theorem crossing_offsets_correct (a b : Word) (ha : a.WF) (hb : b.WF)
    (hcr : Word.is_crossing a b = true) :
    (crossingOffsets a b).1 < a.length ∧ (crossingOffsets a b).2 < b.length ∧
      a.position_at_index (crossingOffsets a b).1 =
        b.position_at_index (crossingOffsets a b).2 := by
  obtain ⟨hal, halx, haly⟩ := ha
  obtain ⟨hbl, hblx, hbly⟩ := hb
  rcases h1 : a.o <;> rcases h2 : b.o
  all_goals try have hax := halx h1
  all_goals try have hay := haly h1
  all_goals try have hbx := hblx h2
  all_goals try have hby := hbly h2
  all_goals simp [Word.is_crossing, Orientation.same_or_opposite_direction,
    Orientation.is_horizontal, Orientation.is_vertical, Word.xmin, Word.xmax,
    Word.ymin, Word.ymax, h1, h2] at hcr
  all_goals simp [crossingOffsets, Word.position_at_index,
    Orientation.is_horizontal, h1, h2, Prod.ext_iff]
  all_goals split_ifs <;> omega

/-- Claim C4 witness: the recorded offsets for the concrete crossing pair
wLeft and wUp are in range and name the shared cell. -/
theorem crossing_offsets_correct_witness :
    (crossingOffsets wLeft wUp).1 < wLeft.length ∧
      (crossingOffsets wLeft wUp).2 < wUp.length ∧
      wLeft.position_at_index (crossingOffsets wLeft wUp).1 =
        wUp.position_at_index (crossingOffsets wLeft wUp).2 :=
  crossing_offsets_correct wLeft wUp (by decide) (by decide) (by decide)

/-- Claim C5: for well-formed slots, is_crossing holds exactly when the
orientations are not parallel and exactly one grid cell lies inside both
footprints. -/
theorem is_crossing_iff_shared_cell (a b : Word) (ha : a.WF) (hb : b.WF) :
    Word.is_crossing a b = true ↔
      (¬ (a.o.same_or_opposite_direction b.o = true) ∧
        ∃! p : Nat × Nat,
          (a.position_in_word p.1 p.2 = true ∧ b.position_in_word p.1 p.2 = true)) := by
  rcases h1 : a.o <;> rcases h2 : b.o
  all_goals simp [Word.is_crossing, Word.position_in_word,
    Orientation.same_or_opposite_direction, Orientation.is_horizontal,
    Orientation.is_vertical, Word.xmin, Word.xmax, Word.ymin, Word.ymax,
    h1, h2, and_assoc]
  all_goals
    constructor
  all_goals try
    rintro ⟨⟨p1, p2⟩, hp, _⟩
    dsimp only at hp
    omega
  all_goals intro h
  all_goals first
    | refine ⟨(b.x, a.y), by dsimp only; omega, ?_⟩
    | refine ⟨(a.x, b.y), by dsimp only; omega, ?_⟩
  all_goals
    rintro ⟨q1, q2⟩ hq
    dsimp only at hq
    rw [Prod.mk.injEq]
    omega

/-- Claim C5 witness: the characterization at the concrete pair wRight and
wDown1. -/
theorem is_crossing_iff_shared_cell_witness :
    Word.is_crossing wRight wDown1 = true ↔
      (¬ (wRight.o.same_or_opposite_direction wDown1.o = true) ∧
        ∃! p : Nat × Nat,
          (wRight.position_in_word p.1 p.2 = true ∧
            wDown1.position_in_word p.1 p.2 = true)) :=
  is_crossing_iff_shared_cell wRight wDown1 (by decide) (by decide)

/-- Claim C6: is_crossing is symmetric on well-formed slots. -/
theorem is_crossing_symm (a b : Word) (ha : a.WF) (hb : b.WF) :
    Word.is_crossing a b = Word.is_crossing b a :=
  is_crossing_symm_aux a b

/-- Claim C6 witness: symmetry at the concrete pair wLeft and wUp. -/
theorem is_crossing_symm_witness :
    Word.is_crossing wLeft wUp = Word.is_crossing wUp wLeft :=
  is_crossing_symm wLeft wUp (by decide) (by decide)

/-- Claim C9 (code bug): for the well-formed non-crossing pair wDown1 and
wDown0 (two vertical slots in adjacent columns with overlapping rows,
anchored at x = 1 and x = 0), Word::is_conflicting evaluates b_xmin - 1
with b_xmin = 0: the checked evaluation underflows (a panic in a debug
build; a release build wraps and reports no conflict), so the operation
does not return a boolean without underflowing. -/
theorem is_conflicting_underflow :
    (wDown1.WF ∧ wDown0.WF ∧ Word.is_crossing wDown1 wDown0 = false) ∧
      Word.is_conflictingChecked wDown1 wDown0 = none := by
  decide

/-- Claim C10: Board::unplace leaves the board's changed flag exactly as it
was (it clears the slot and refreshes candidates, touching only words). -/
theorem unplace_preserves_changed (dict : Dict) (bd : Board) (ix : Nat) :
    (Board.unplace dict bd ix).changed = bd.changed := rfl

/-- Claim C8: with the dictionary a pure function of (key, length, hint),
running refresh_candidates twice in a row leaves every slot's candidate
set exactly as after the first run. -/
theorem refresh_candidates_idempotent (dict : Dict) (bd : Board) (j : Nat) :
    ((Board.refresh_candidates dict (Board.refresh_candidates dict bd)).words.getD
        j default).candidates =
      ((Board.refresh_candidates dict bd).words.getD j default).candidates := by
  by_cases hj : j < bd.words.length
  · have hnR : j < (bd.refresh_candidates dict).words.length := by
      rw [refresh_candidates_words_length]
      exact hj
    have hskel := refresh_candidates_skel dict bd
    have hchar := refresh_candidates_words_getD dict bd j hj
    have hhint : get_hints (bd.refresh_candidates dict).words
        (bd.refresh_candidates dict).crossings j = get_hints bd.words bd.crossings j :=
      (get_hints_congr bd.crossings j hskel).symm
    rw [refresh_candidates_words_getD dict (bd.refresh_candidates dict) j hnR]
    by_cases hp : (bd.words.getD j default).placed = true
    · have hR : (bd.refresh_candidates dict).words.getD j default = bd.words.getD j default := by
        rw [hchar, if_pos hp]
      rw [hR, if_pos hp]
    · rcases hk : (bd.words.getD j default).key with _ | k
      · have hR : (bd.refresh_candidates dict).words.getD j default = bd.words.getD j default := by
          rw [hchar, if_neg hp]
          simp only [hk]
        rw [hR, if_neg hp]
        simp only [hk]
      · have hR : (bd.refresh_candidates dict).words.getD j default =
            { bd.words.getD j default with
              candidates := dict k (bd.words.getD j default).length
                (get_hints bd.words bd.crossings j) } := by
          rw [hchar, if_neg hp]
          simp only [hk]
        rw [hR]
        dsimp only
        rw [if_neg hp]
        simp only [hk]
        rw [hhint]
  · have h1 : bd.words.length ≤ j := by omega
    have h2 : (bd.refresh_candidates dict).words.length ≤ j := by
      rw [refresh_candidates_words_length]
      exact h1
    have h3 : (Board.refresh_candidates dict (bd.refresh_candidates dict)).words.length ≤ j := by
      rw [refresh_candidates_words_length]
      exact h2
    rw [getD_of_length_le _ h2, getD_of_length_le _ h3]

/-- Claim C2: when solve_repeated returns, the board state is Solved when
no slot remains uncommitted, Unsolvable when every uncommitted slot has no
candidate, Unsolved when the maximum candidate count over uncommitted
slots is exactly one, and Ambiguous when some uncommitted slot has two or
more candidates. -/
theorem solve_repeated_state_spec (dict : Dict) (fuel : Nat) (bd bd2 : Board)
    (h : Board.solve_repeated dict fuel bd = some bd2) :
    ((∀ w ∈ bd2.words, w.placed = true) → bd2.state = State.Solved) ∧
    ((∃ w ∈ bd2.words, w.placed = false) →
      (∀ w ∈ bd2.words, w.placed = false → w.candidates.length = 0) →
      bd2.state = State.Unsolvable) ∧
    ((∃ w ∈ bd2.words, w.placed = false ∧ w.candidates.length = 1) →
      (∀ w ∈ bd2.words, w.placed = false → w.candidates.length ≤ 1) →
      bd2.state = State.Unsolved) ∧
    ((∃ w ∈ bd2.words, w.placed = false ∧ 2 ≤ w.candidates.length) →
      bd2.state = State.Ambiguous) := by
  simp only [Board.solve_repeated, Option.map_eq_some'] at h
  obtain ⟨b, hb, hmap⟩ := h
  have hstate : bd2.state = classify bd2.words := by
    rw [← hmap]
  rw [hstate]
  exact classify_spec bd2.words

/-- Claim C2 witness: on the concrete board bdW whose only slot is placed,
solve_repeated returns and classifies the board as Solved. -/
theorem solve_repeated_state_spec_witness :
    (Board.solve_repeated d0 1 bdW = some { bdW with state := State.Solved }) ∧
      ({ bdW with state := State.Solved } : Board).state = State.Solved :=
  ⟨by decide, (solve_repeated_state_spec d0 1 bdW _ (by decide)).1 (by decide)⟩

/-- Claim C3: when solve_repeated returns, no uncommitted slot is left
with exactly one candidate (the loop only stops after a pass that placed
nothing). -/
theorem solve_repeated_fixed_point (dict : Dict) (fuel : Nat) (bd bd2 : Board)
    (h : Board.solve_repeated dict fuel bd = some bd2) :
    ∀ w ∈ bd2.words, w.placed = false → w.candidates.length ≠ 1 := by
  simp only [Board.solve_repeated, Option.map_eq_some'] at h
  obtain ⟨b, hb, hmap⟩ := h
  have hw : bd2.words = b.words := by rw [← hmap]
  intro w hwmem hp hlen
  rw [hw] at hwmem
  obtain ⟨n, hn, hget⟩ := List.mem_iff_getElem.mp hwmem
  have hgd : b.words.getD n default = w := by
    rw [List.getD_eq_getElem _ _ hn]
    exact hget
  refine solveLoop_no_single dict fuel bd b hb n hn ⟨by rw [hgd]; exact hp, ?_⟩
  rw [hgd]
  simp [Word.has_one_candidate, hlen]

/-- Claim C3 witness: on the concrete board bdY the solver places the only
slot and the fixed point property holds of the returned board bdZ. -/
theorem solve_repeated_fixed_point_witness :
    (Board.solve_repeated d0 2 bdY = some bdZ) ∧
      ∀ w ∈ bdZ.words, w.placed = false → w.candidates.length ≠ 1 :=
  ⟨by decide, solve_repeated_fixed_point d0 2 bdY bdZ (by decide)⟩

/-- Claim C7 (amended): refresh_candidates builds, for every uncommitted
slot, the hint string of the slot's length carrying the committed crossing
characters at their shared offsets and dots elsewhere; it replaces the
candidate set of every uncommitted slot that has a key with the dictionary
result for (key, length, hint); and it leaves committed slots, and
uncommitted keyless (solution) slots, entirely unchanged. -/
theorem refresh_candidates_spec (dict : Dict) (bd : Board) :
    (bd.refresh_candidates dict).crossings = bd.crossings ∧
    (∀ j, j < bd.words.length → (bd.words.getD j default).placed = true →
      (bd.refresh_candidates dict).words.getD j default = bd.words.getD j default) ∧
    (∀ j, j < bd.words.length → (bd.words.getD j default).placed = false →
      ∀ k, (bd.words.getD j default).key = some k →
        ((bd.refresh_candidates dict).words.getD j default).candidates =
          dict k (bd.words.getD j default).length (get_hints bd.words bd.crossings j)) ∧
    (∀ j, j < bd.words.length → (bd.words.getD j default).placed = false →
      (bd.words.getD j default).key = none →
      (bd.refresh_candidates dict).words.getD j default = bd.words.getD j default) ∧
    (∀ j, j < bd.words.length → (bd.words.getD j default).placed = false →
      (get_hints bd.words bd.crossings j).length = (bd.words.getD j default).length) ∧
    (∀ j, j < bd.words.length → (bd.words.getD j default).placed = false →
      ∀ i2, i2 < (bd.words.getD j default).length →
        (∀ e ∈ bd.crossings.getD j [], (bd.words.getD e.1 default).placed = true →
          e.2.1 ≠ i2) →
        (get_hints bd.words bd.crossings j).getD i2 '?' = '.') ∧
    (∀ j, j < bd.words.length → (bd.words.getD j default).placed = false →
      j < bd.crossings.length →
      List.Pairwise (fun e1 e2 => e1.2.1 ≠ e2.2.1) (bd.crossings.getD j []) →
      ∀ e ∈ bd.crossings.getD j [], (bd.words.getD e.1 default).placed = true →
        e.2.1 < (bd.words.getD j default).length →
        (get_hints bd.words bd.crossings j).getD e.2.1 '?' =
          (bd.words.getD e.1 default).char_at e.2.2) := by
  refine ⟨rfl, ?_, ?_, ?_, ?_, ?_, ?_⟩
  · intro j hj hp
    rw [refresh_candidates_words_getD dict bd j hj, if_pos hp]
  · intro j hj hp k hk
    rw [refresh_candidates_words_getD dict bd j hj, if_neg (by rw [hp]; simp)]
    simp only [hk]
  · intro j hj hp hk
    rw [refresh_candidates_words_getD dict bd j hj, if_neg (by rw [hp]; simp)]
    simp only [hk]
  · intro j hj hp
    exact get_hints_length bd j hp
  · intro j hj hp i2 hi2 hnone
    exact get_hints_getD_none bd j i2 hp hi2 hnone
  · intro j hj hp hjc hpw e he hpl hlt
    exact get_hints_getD_mem bd j e hp hjc hpw he hpl hlt

/-- Claim C7 witness: on the concrete board bdK, refresh replaces the
uncommitted keyed slot's candidates by the dictionary result. -/
theorem refresh_candidates_spec_witness :
    ((bdK.refresh_candidates dK).words.getD 0 default).candidates =
      dK "k" 2 (get_hints bdK.words bdK.crossings 0) :=
  (refresh_candidates_spec dK bdK).2.2.1 0 (by decide) (by decide) "k" (by decide)

/-- Claim C7 counterexample: the uncommitted keyless slot of bdn keeps its
nonempty candidate list across refresh although the dictionary returns the
empty list for every query, so refresh does not replace every uncommitted
slot's candidates with a dictionary lookup result. -/
theorem refresh_candidates_cex :
    ((bdn.refresh_candidates d0).words.getD 0 default).candidates = [['A', 'B']] ∧
    (bdn.words.getD 0 default).placed = false ∧
    (∀ k l h2, d0 k l h2 = ([] : List (List Char))) :=
  ⟨by decide, by decide, fun _ _ _ => rfl⟩

/-- Reduction of Board::place to its crossing fold followed by the
unplace fold, with the committed word written explicitly. -/
theorem place_words_eq (dict : Dict) (bd : Board) (ix : Nat) (optWord : Option (List Char))
    (hix : ix < bd.words.length) :
    (Board.place dict bd ix optWord).words =
      (((bd.crossings.getD ix []).foldl
          (placeStep ((bd.words.getD ix default).place optWord))
          (bd.words.set ix ((bd.words.getD ix default).place optWord),
            ([] : List Nat))).2.foldl
        (fun b u => Board.unplace dict b u)
        { bd with
          words := ((bd.crossings.getD ix []).foldl
            (placeStep ((bd.words.getD ix default).place optWord))
            (bd.words.set ix ((bd.words.getD ix default).place optWord),
              ([] : List Nat))).1 }).words := by
  simp only [Board.place]
  rw [getD_set_self bd.words hix]

/-- Claim C1 (amended): on a board whose crossing list for the committed
slot is well-formed (distinct neighbor indices, in range, different from
the slot), every already committed crossing neighbor whose fixed character
mismatches the committed character at the shared cell is uncommitted after
place; and provided no committed neighbor mismatches (so no rollback and
no refresh runs), every previously uncommitted crossing neighbor ends with
exactly its former candidates whose character at the shared offset equals
the committed character, up to order. -/
theorem place_crossing_spec (dict : Dict) (bd : Board) (ix : Nat)
    (optWord : Option (List Char))
    (hix : ix < bd.words.length)
    (hnodup : ((bd.crossings.getD ix []).map (fun e => e.1)).Nodup)
    (hne : ∀ e ∈ bd.crossings.getD ix [], e.1 ≠ ix ∧ e.1 < bd.words.length) :
    (∀ e ∈ bd.crossings.getD ix [],
      (bd.words.getD e.1 default).placed = true →
      (bd.words.getD e.1 default).char_at e.2.2 ≠
        ((bd.words.getD ix default).place optWord).char_at e.2.1 →
      ((Board.place dict bd ix optWord).words.getD e.1 default).placed = false) ∧
    ((∀ e ∈ bd.crossings.getD ix [],
        (bd.words.getD e.1 default).placed = true →
        (bd.words.getD e.1 default).char_at e.2.2 =
          ((bd.words.getD ix default).place optWord).char_at e.2.1) →
      ∀ e ∈ bd.crossings.getD ix [],
        (bd.words.getD e.1 default).placed = false →
        List.Perm ((Board.place dict bd ix optWord).words.getD e.1 default).candidates
          ((bd.words.getD e.1 default).candidates.filter
            (fun c => c.getD e.2.2 '?' ==
              ((bd.words.getD ix default).place optWord).char_at e.2.1))) := by
  have hkey : ∀ e ∈ bd.crossings.getD ix [],
      (bd.words.set ix ((bd.words.getD ix default).place optWord)).getD e.1 default =
        bd.words.getD e.1 default :=
    fun e he => getD_set_ne bd.words (fun hc => (hne e he).1 hc.symm) _ _
  constructor
  · intro e he hpl hmis
    rw [place_words_eq dict bd ix optWord hix]
    refine unplaceFold_mem dict _ _ e.1 ?_
    refine placeFold_mem_unp _ (bd.crossings.getD ix []) _ hnodup e he ?_ ?_
    · rw [hkey e he]
      exact hpl
    · rw [hkey e he]
      simp only [beq_iff_eq]
      exact hmis
  · intro hnomis e he hpl
    rw [place_words_eq dict bd ix optWord hix]
    have hunp : ((bd.crossings.getD ix []).foldl
        (placeStep ((bd.words.getD ix default).place optWord))
        (bd.words.set ix ((bd.words.getD ix default).place optWord),
          ([] : List Nat))).2 = [] := by
      refine placeFold_no_unp _ _ _ hnodup ?_
      intro e2 he2 hp2
      rw [hkey e2 he2] at hp2 ⊢
      simp only [beq_iff_eq]
      exact hnomis e2 he2 hp2
    rw [hunp]
    simp only [List.foldl_nil]
    have hflt := placeFold_filter ((bd.words.getD ix default).place optWord)
      (bd.crossings.getD ix [])
      (bd.words.set ix ((bd.words.getD ix default).place optWord), ([] : List Nat))
      hnodup e he (by rw [hkey e he]; exact hpl)
      (by rw [List.length_set]; exact (hne e he).2)
    rw [hflt]
    dsimp only
    rw [hkey e he]
    exact swapFilter_perm _ _

/-- Claim C1 witness: on the concrete board bdc1 (no committed neighbor),
the uncommitted crossing neighbor of the placed slot ends with exactly the
matching candidates. -/
theorem place_crossing_spec_witness :
    (∀ e ∈ bdc1.crossings.getD 0 [],
      (bdc1.words.getD e.1 default).placed = true →
      (bdc1.words.getD e.1 default).char_at e.2.2 ≠
        ((bdc1.words.getD 0 default).place none).char_at e.2.1 →
      ((Board.place dcex bdc1 0 none).words.getD e.1 default).placed = false) ∧
    ((∀ e ∈ bdc1.crossings.getD 0 [],
        (bdc1.words.getD e.1 default).placed = true →
        (bdc1.words.getD e.1 default).char_at e.2.2 =
          ((bdc1.words.getD 0 default).place none).char_at e.2.1) →
      ∀ e ∈ bdc1.crossings.getD 0 [],
        (bdc1.words.getD e.1 default).placed = false →
        List.Perm ((Board.place dcex bdc1 0 none).words.getD e.1 default).candidates
          ((bdc1.words.getD e.1 default).candidates.filter
            (fun c => c.getD e.2.2 '?' ==
              ((bdc1.words.getD 0 default).place none).char_at e.2.1))) :=
  place_crossing_spec dcex bdc1 0 none (by decide) (by decide) (by decide)

/-- Claim C1 counterexample: on the board bd3 the committed slot has a
mismatching committed neighbor (slot 1), whose rollback triggers a full
candidate refresh; the uncommitted neighbor slot 2 therefore ends with the
dictionary's answer rather than with the filtered subset of its previous
candidates, refuting the unconditional filtering claim. -/
theorem place_crossing_cex :
    ((2, 2, 1) ∈ bd3.crossings.getD 0 []) ∧
    ((bd3.words.getD 2 default).placed = false) ∧
    ¬ List.Perm ((Board.place dcex bd3 0 none).words.getD 2 default).candidates
        ((bd3.words.getD 2 default).candidates.filter
          (fun c => c.getD 1 '?' == ((bd3.words.getD 0 default).place none).char_at 2)) :=
  ⟨by decide, by decide, by decide⟩

end Kryss
